import Mathlib

/-!
Shallow embedding of the rank-fusion core of the `rag-techniques` notebooks:

* the document identity key (`langchain.load.dumps`, i.e. `json.dumps` of the
  Document constructor envelope, used by both notebooks below);
* the unique-union combiner `get_unique_union`
  (`B - Query Translation/1 - Multi-query.ipynb`);
* the reciprocal-rank fusion engine `reciprocal_rank_fusion`
  (`B - Query Translation/2 - RAG-fusion.ipynb`);
* the variant-splitting stage of `chain_generate_queries`
  (the `lambda x: x.split("\n\n")` tail of the chain, same in both notebooks).

Real-number scores are modelled by `ℚ` (the notebook computes with Python
floats; every claim under study is about exact rank-reciprocal sums and
their comparisons, which `ℚ` renders faithfully).
-/

namespace RagTechniques

/-- Brace characters, written via their code points throughout. -/
def lbrace : Char := '\x7b'

/-- Closing brace character. -/

def rbrace : Char := '\x7d'

/-- One retrieved passage, as in the spec's RetrievedItem and langchain's
`Document`: a text body plus a metadata mapping.  Python dicts preserve
insertion order, so `metadata` is an ordered association list; values are
modelled as strings (origin identifiers, timestamps).  The optional
retrieval `score` accompanies the item but is not part of the serialized
Document payload, exactly as in the source where similarity scores are not
stored on the `Document` object. -/

structure RetrievedItem where
  page_content : String
  metadata : List (String × String)
  score : Option ℚ := none
  deriving DecidableEq, Repr

/-- JSON string escaping of a single character, as performed by `json.dumps`
on the payload strings.  (`json.dumps` additionally escapes control and
non-ASCII characters; that refinement maps single characters to fixed longer
sequences in the same prefix-coded style and does not change any key-equality
fact proved here, so it is omitted.) -/

def escChar (c : Char) : List Char :=
  if c = '\\' then ['\\', '\\']
  else if c = '"' then ['\\', '"']
  else [c]

/-- JSON string escaping of a character sequence. -/

def esc : List Char → List Char
  | [] => []
  | c :: rest => escChar c ++ esc rest

/-- Rendering of the metadata dict as a JSON object body, in dict insertion
order with the `", "` and `": "` separators `json.dumps` uses by default:
`langchain.load.dumps` does not pass `sort_keys`, so key order is preserved
exactly as the dict holds it. -/

def metaPairs : List (String × String) → List Char
  | [] => []
  | (key, v) :: rest =>
    '"' :: esc key.data ++ '"' :: ':' :: ' ' :: '"' :: esc v.data ++ '"' ::
      (match rest with
       | [] => []
       | _ :: _ => ',' :: ' ' :: metaPairs rest)

/-- The fixed serialization envelope emitted by `langchain.load.dumps` for a
`Document`, up to and including the opening quote of `page_content`. -/

def lcPrefix : List Char :=
  lbrace :: "\"lc\": 1, \"type\": \"constructor\", \"id\": [\"langchain\", \"schema\", \"document\", \"Document\"], \"kwargs\": ".data ++
    lbrace :: "\"page_content\": \"".data

/-- The envelope between the closing quote of `page_content` and the metadata
object body. -/

def metaHeader : List Char :=
  ',' :: ' ' :: '"' :: "metadata".data ++ '"' :: ':' :: ' ' :: [lbrace]

/-- Character sequence of `langchain.load.dumps(doc)`: the JSON text of the
Document constructor envelope around the escaped `page_content` and the
metadata object. -/

def dumpsL (d : RetrievedItem) : List Char :=
  lcPrefix ++ esc d.page_content.data ++ '"' ::
    (metaHeader ++ (metaPairs d.metadata ++ [rbrace, rbrace, rbrace]))

/-- The identity key `doc_str = dumps(doc)` used by both notebooks. -/

def dumps (d : RetrievedItem) : String := String.mk (dumpsL d)

/-- Decoder for a JSON-escaped string up to its closing quote; returns the
unescaped body and the remainder after the quote. -/

def unescape : List Char → Option (List Char × List Char)
  | [] => none
  | c :: rest =>
    if c = '"' then some ([], rest)
    else if c = '\\' then
      match rest with
      | [] => none
      | c2 :: rest2 =>
        match unescape rest2 with
        | none => none
        | some (s, r) => some (c2 :: s, r)
    else
      match unescape rest with
      | none => none
      | some (s, r) => some (c :: s, r)

def sampleA : RetrievedItem := ⟨"doc A", [("source", "s1")], none⟩

/-- Second concrete item. -/

def sampleB : RetrievedItem := ⟨"doc B", [("source", "s1")], none⟩

/-- Third concrete item. -/

def sampleC : RetrievedItem := ⟨"doc C", [("source", "s1")], none⟩

/-- Fourth concrete item. -/

def sampleD : RetrievedItem := ⟨"doc D", [("source", "s1")], none⟩

/-- The four sample items have pairwise distinct identity keys. -/

def metaOrder1 : RetrievedItem := ⟨"same text", [("a", "1"), ("b", "2")], none⟩

/-- Item with the same content and the same metadata pairs, inserted in the
other order. -/

def metaOrder2 : RetrievedItem := ⟨"same text", [("b", "2"), ("a", "1")], none⟩

/-- The two metadata orderings carry equal content and equal key-value sets,
yet serialize to different identity keys. -/

inductive PyError where
  | zeroDivisionError
  deriving DecidableEq, Repr

instance {ε α : Type} [DecidableEq ε] [DecidableEq α] : DecidableEq (Except ε α) := fun a b =>
  match a, b with
  | .error e1, .error e2 => decidable_of_iff (e1 = e2) (by simp)
  | .error _, .ok _ => isFalse (by simp)
  | .ok _, .error _ => isFalse (by simp)
  | .ok v1, .ok v2 => decidable_of_iff (v1 = v2) (by simp)

/-- One `fused_scores[doc_str] += contribution` step on the insertion-ordered
dict, embedded as an association list: a missing key is appended at the end
with initial score `0 + contribution`; an existing key keeps its position and
its score is increased.  The dict's key is `dumps doc`; we store the
first-encountered item itself alongside: re-parsing the stored key with
`loads` returns exactly this item because `dumps` is injective
(`dumps_eq_iff`) and `loads` is its left inverse. -/

def addScore : List (RetrievedItem × ℚ) → RetrievedItem → ℚ → List (RetrievedItem × ℚ)
  | [], doc, c => [(doc, c)]
  | (d, s) :: rest, doc, c =>
    if dumps d = dumps doc then (d, s + c) :: rest
    else (d, s) :: addScore rest doc c

/-- The inner loop `for rank, doc in enumerate(docs): ... += 1 / (rank + k)`,
with zero-based ranks. -/

def scoreList (k : ℚ) (acc : List (RetrievedItem × ℚ)) (docs : List RetrievedItem) :
    List (RetrievedItem × ℚ) :=
  (docs.enum).foldl (fun a p => addScore a p.2 (1 / ((p.1 : ℚ) + k))) acc

/-- The full `fused_scores` dict after both loops of
`reciprocal_rank_fusion`. -/

def fusedScores (results : List (List RetrievedItem)) (k : ℚ) :
    List (RetrievedItem × ℚ) :=
  results.foldl (scoreList k) []

/-- Stable descending insertion: the new element goes before the first entry
whose score it matches or exceeds.  Python's `sorted(..., reverse=True)` is a
stable descending sort, and the stable descending ordering of a sequence is
unique, so this insertion sort is extensionally the same function. -/

def insertByScore (x : RetrievedItem × ℚ) :
    List (RetrievedItem × ℚ) → List (RetrievedItem × ℚ)
  | [] => [x]
  | y :: ys => if y.2 ≤ x.2 then x :: y :: ys else y :: insertByScore x ys

/-- `sorted(fused_scores.items(), key=lambda x: x[1], reverse=True)`. -/

def sortByScoreDesc (l : List (RetrievedItem × ℚ)) : List (RetrievedItem × ℚ) :=
  l.foldr insertByScore []

/-- Whether some scoring step `1 / (rank + k)` would divide by zero: the one
failure the loop can hit.  Python raises `ZeroDivisionError` at the first such
step and the function returns nothing; since no partial state escapes, the
run is observably equivalent to checking for such a position up front. -/

def hasZeroDenominator (results : List (List RetrievedItem)) (k : ℚ) : Bool :=
  results.any fun docs =>
    (List.range docs.length).any fun r => (r : ℚ) + k = 0

/-- The reciprocal-rank fusion engine of
`B - Query Translation/2 - RAG-fusion.ipynb`: accumulate `1 / (rank + k)`
into the insertion-ordered `fused_scores` dict, then return the entries
sorted by fused score descending (stably).  `k` defaults to 60 and is never
validated. -/

def reciprocal_rank_fusion (results : List (List RetrievedItem)) (k : ℚ := 60) :
    Except PyError (List (RetrievedItem × ℚ)) :=
  if hasZeroDenominator results k then .error .zeroDivisionError
  else .ok (sortByScoreDesc (fusedScores results k))

/-- Keep the first occurrence of each `dumps`-key.  `get_unique_union`
materializes the distinct keys with `list(set(flattened_docs))`, whose
iteration order is arbitrary, and re-parses each key with `loads`; every
order-insensitive fact proved below (size, one-instance-per-key, which value
each key parses back to) is shared by all orderings, and we fix the
first-encounter order as the representative. -/

def uniqueByKey : List RetrievedItem → List RetrievedItem
  | [] => []
  | d :: rest => d :: uniqueByKey (rest.filter fun e => dumps e ≠ dumps d)
  termination_by l => l.length
  decreasing_by
    simpa using Nat.lt_succ_of_le (List.length_filter_le _ rest)

/-- `get_unique_union` of `B - Query Translation/1 - Multi-query.ipynb`:
flatten the lists of retrieved documents, serialize each with `dumps`, keep
the distinct serializations, and parse each kept key back into its
document. -/

def get_unique_union (documents : List (List RetrievedItem)) : List RetrievedItem :=
  uniqueByKey documents.flatten

/-- Python's `x.split("\n\n")`: greedy left-to-right splitting on the exact
two-character separator, specialised to the delimiter the chains use. -/

def splitOnDoubleNewline : List Char → List (List Char)
  | '\n' :: '\n' :: rest =>
    [] :: splitOnDoubleNewline rest
  | c :: rest =>
    match splitOnDoubleNewline rest with
    | [] => [[c]]
    | piece :: pieces => (c :: piece) :: pieces
  | [] => [[]]

/-- The parsing tail of `chain_generate_queries` (both notebooks):
`StrOutputParser()` passes the model's text through unchanged and
`lambda x: x.split("\n\n")` turns it into the variant list.  The prompt and
the model are external collaborators; this is the whole of the core's own
variant handling, and it has no failure path. -/

def chain_generate_queries (llm_output : String) : List String :=
  (splitOnDoubleNewline llm_output.data).map String.mk

/-- Contribution of one ranked list to one key, starting at rank `n`: the sum
of `1 / (r + k)` over the zero-based positions `r` whose document serializes
to the key.  A key absent from the list gets `0`. -/

def listScoreFrom (key : String) (k : ℚ) (n : ℕ) (docs : List RetrievedItem) : ℚ :=
  ((docs.enumFrom n).map fun p =>
    if dumps p.2 = key then 1 / ((p.1 : ℚ) + k) else 0).sum

/-- Contribution of one ranked list to one key (ranks from 0). -/

def listScore (key : String) (k : ℚ) (docs : List RetrievedItem) : ℚ :=
  listScoreFrom key k 0 docs

/-- The fused score the claim ascribes to a key: the sum over every input
list of that list's contribution. -/

def totalScore (key : String) (k : ℚ) (results : List (List RetrievedItem)) : ℚ :=
  (results.map (listScore key k)).sum

/-- The score an association list assigns to a key: the sum of the values
stored under it (0 when absent; the single stored value once the keys are
known to be distinct). -/

def assocScore (acc : List (RetrievedItem × ℚ)) (key : String) : ℚ :=
  ((acc.filter fun p => decide (dumps p.1 = key)).map Prod.snd).sum

/-- The keys of the association list, in storage order. -/

def keysOf (acc : List (RetrievedItem × ℚ)) : List String :=
  acc.map fun p => dumps p.1

def itemsOf (acc : List (RetrievedItem × ℚ)) : List RetrievedItem :=
  acc.map Prod.fst

/-- First-encounter accumulation: append a document unless its key has been
seen. -/

def feStep (its : List RetrievedItem) (d : RetrievedItem) : List RetrievedItem :=
  if dumps d ∈ its.map dumps then its else its ++ [d]

/-- The documents of a stream in the order their keys are first
encountered. -/

def firstEncounterItems (l : List RetrievedItem) : List RetrievedItem :=
  l.foldl feStep []

/-- The distinct keys of a stream in first-encounter order. -/

def firstEncounterKeys (l : List RetrievedItem) : List String :=
  (firstEncounterItems l).map dumps

theorem unescape_quote (r : List Char) : unescape ('"' :: r) = some ([], r) := by
  rw [unescape.eq_def]
  simp

theorem unescape_backslash (c2 : Char) (rest2 : List Char) :
    unescape ('\\' :: c2 :: rest2) =
      match unescape rest2 with
      | none => none
      | some (s, r) => some (c2 :: s, r) := by
  rw [unescape.eq_def]
  simp

theorem unescape_other (c : Char) (rest : List Char) (h1 : ¬c = '"') (h2 : ¬c = '\\') :
    unescape (c :: rest) =
      match unescape rest with
      | none => none
      | some (s, r) => some (c :: s, r) := by
  rw [unescape.eq_def]
  simp [h1, h2]

theorem unescape_esc (s r : List Char) :
    unescape (esc s ++ '"' :: r) = some (s, r) := by
  induction s with
  | nil => simp [esc, unescape_quote]
  | cons c t ih =>
    by_cases h1 : c = '\\'
    · subst h1
      simp [esc, escChar, unescape_backslash, ih]
    · by_cases h2 : c = '"'
      · subst h2
        simp [esc, escChar, unescape_backslash, ih]
      · simp [esc, escChar, h1, h2, unescape_other c _ h2 h1, ih]

/-- Escaped-and-quoted segments of a JSON text are uniquely decodable. -/

theorem esc_append_quote_inj {s1 s2 r1 r2 : List Char}
    (h : esc s1 ++ '"' :: r1 = esc s2 ++ '"' :: r2) : s1 = s2 ∧ r1 = r2 := by
  have h1 := unescape_esc s1 r1
  rw [h, unescape_esc] at h1
  simpa [eq_comm] using h1

theorem String.mk_inj {a b : List Char} : String.mk a = String.mk b ↔ a = b :=
  ⟨fun h => by injection h, fun h => by rw [h]⟩

theorem String.eq_of_data_eq {a b : String} (h : a.data = b.data) : a = b := by
  cases a; cases b; exact String.mk_inj.mpr h

/-- Metadata object bodies followed by a closing brace are uniquely
decodable: equal renderings come from equal ordered pair lists. -/

theorem metaPairs_append_inj :
    ∀ (m1 m2 : List (String × String)) (r1 r2 : List Char),
      metaPairs m1 ++ rbrace :: r1 = metaPairs m2 ++ rbrace :: r2 →
      m1 = m2 ∧ r1 = r2 := by
  intro m1
  induction m1 with
  | nil =>
    intro m2 r1 r2 h
    cases m2 with
    | nil =>
      simp only [metaPairs, List.nil_append] at h
      exact ⟨rfl, (List.cons.injEq _ _ _ _ ▸ h).2⟩
    | cons p t =>
      obtain ⟨k2, v2⟩ := p
      simp [metaPairs, rbrace] at h
  | cons p t1 ih =>
    obtain ⟨k1, v1⟩ := p
    intro m2 r1 r2 h
    cases m2 with
    | nil =>
      simp [metaPairs, rbrace] at h
    | cons q t2 =>
      obtain ⟨k2, v2⟩ := q
      simp only [metaPairs, List.cons_append, List.append_assoc,
        List.cons.injEq, true_and] at h
      obtain ⟨hk, h⟩ := esc_append_quote_inj h
      simp only [List.cons_append, List.cons.injEq, true_and] at h
      obtain ⟨hv, h⟩ := esc_append_quote_inj h
      have hkey : k1 = k2 := String.eq_of_data_eq hk
      have hval : v1 = v2 := String.eq_of_data_eq hv
      cases t1 with
      | nil =>
        cases t2 with
        | nil =>
          simp only [List.nil_append, List.cons.injEq, true_and] at h
          exact ⟨by rw [hkey, hval], h⟩
        | cons q2 u2 =>
          simp [rbrace] at h
      | cons p2 u1 =>
        cases t2 with
        | nil =>
          simp [rbrace] at h
        | cons q2 u2 =>
          simp only [List.cons_append, List.cons.injEq, true_and] at h
          obtain ⟨ht, hr⟩ := ih (q2 :: u2) r1 r2 h
          exact ⟨by rw [hkey, hval, ht], hr⟩

/-- The identity key determines, and is determined by, exactly the pair of
`page_content` and the ordered `metadata` association list: the serialization
is injective on that pair, and the retrieval `score` plays no part in it. -/

theorem dumps_eq_iff (d1 d2 : RetrievedItem) :
    dumps d1 = dumps d2 ↔
      d1.page_content = d2.page_content ∧ d1.metadata = d2.metadata := by
  constructor
  · intro h
    rw [dumps, dumps, String.mk_inj] at h
    unfold dumpsL at h
    rw [List.append_assoc, List.append_assoc, List.append_right_inj] at h
    obtain ⟨hc, h⟩ := esc_append_quote_inj h
    simp only [metaHeader, List.cons_append, List.append_assoc, List.cons.injEq,
      List.append_right_inj, List.singleton_append, true_and] at h
    obtain ⟨hm, -⟩ := metaPairs_append_inj _ _ _ _ h
    exact ⟨String.eq_of_data_eq hc, hm⟩
  · intro ⟨h1, h2⟩
    rw [dumps, dumps, String.mk_inj]
    unfold dumpsL
    rw [h1, h2]

/-- Concrete retrieved items used to instantiate theorems with hypotheses. -/

theorem sample_keys_distinct :
    dumps sampleA ≠ dumps sampleB ∧ dumps sampleA ≠ dumps sampleC ∧
      dumps sampleA ≠ dumps sampleD ∧ dumps sampleB ≠ dumps sampleC ∧
      dumps sampleB ≠ dumps sampleD ∧ dumps sampleC ≠ dumps sampleD := by
  refine ⟨?_, ?_, ?_, ?_, ?_, ?_⟩ <;> decide

/-- Item whose metadata lists the same two pairs in one order. -/

theorem metaOrder_same_mapping_different_keys :
    metaOrder1.page_content = metaOrder2.page_content ∧
      List.Perm metaOrder1.metadata metaOrder2.metadata ∧
      (dumps metaOrder1 == dumps metaOrder2) = false := by
  refine ⟨rfl, ?_, by decide⟩
  exact List.Perm.swap ("b", "2") ("a", "1") []

-- Identity keys are compared and stored many times over; their internal
-- text never matters past this point, so the serializer is left folded to
-- keep elaboration cheap.

attribute [irreducible] dumps

/-- The one Python exception the scoring loop itself can raise: `1 / (rank + k)`
with a zero denominator.  The function performs no validation of `k`, so no
configuration error is part of its behaviour. -/

theorem assocScore_nil (key : String) : assocScore [] key = 0 := rfl

theorem assocScore_cons (d : RetrievedItem) (s : ℚ) (rest : List (RetrievedItem × ℚ))
    (key : String) :
    assocScore ((d, s) :: rest) key =
      (if dumps d = key then s else 0) + assocScore rest key := by
  by_cases h : dumps d = key <;> simp [assocScore, h]

theorem assocScore_addScore (acc : List (RetrievedItem × ℚ)) (doc : RetrievedItem)
    (c : ℚ) (key : String) :
    assocScore (addScore acc doc c) key =
      assocScore acc key + (if dumps doc = key then c else 0) := by
  induction acc with
  | nil =>
    by_cases h : dumps doc = key <;>
      simp [addScore, assocScore_cons, assocScore_nil, h]
  | cons p rest ih =>
    obtain ⟨d, s⟩ := p
    by_cases h : dumps d = dumps doc
    · by_cases hk : dumps doc = key
      · simp [addScore, h, assocScore_cons, h.trans hk, hk]
        ring
      · have hdk : ¬dumps d = key := fun hd => hk (h ▸ hd)
        simp [addScore, h, assocScore_cons, hdk, hk]
    · simp only [addScore, if_neg h, assocScore_cons, ih]
      ring

theorem keysOf_addScore (acc : List (RetrievedItem × ℚ)) (doc : RetrievedItem) (c : ℚ) :
    keysOf (addScore acc doc c) =
      if dumps doc ∈ keysOf acc then keysOf acc else keysOf acc ++ [dumps doc] := by
  induction acc with
  | nil => simp [addScore, keysOf]
  | cons p rest ih =>
    obtain ⟨d, s⟩ := p
    by_cases h : dumps d = dumps doc
    · simp [addScore, h, keysOf]
    · have hne : ¬dumps doc = dumps d := fun he => h he.symm
      simp only [addScore, if_neg h, keysOf, List.map_cons] at ih ⊢
      rw [ih]
      by_cases hm : dumps doc ∈ List.map (fun p => dumps p.1) rest
      · simp [hm, hne]
      · simp [hm, hne]

theorem mem_keysOf_addScore (acc : List (RetrievedItem × ℚ)) (doc : RetrievedItem)
    (c : ℚ) (key : String) :
    key ∈ keysOf (addScore acc doc c) ↔ key ∈ keysOf acc ∨ key = dumps doc := by
  rw [keysOf_addScore]
  by_cases hm : dumps doc ∈ keysOf acc
  · simp only [if_pos hm]
    constructor
    · exact fun h => Or.inl h
    · rintro (h | rfl)
      · exact h
      · exact hm
  · simp [if_neg hm]

theorem nodup_keysOf_addScore (acc : List (RetrievedItem × ℚ)) (doc : RetrievedItem)
    (c : ℚ) (h : (keysOf acc).Nodup) : (keysOf (addScore acc doc c)).Nodup := by
  rw [keysOf_addScore]
  by_cases hm : dumps doc ∈ keysOf acc
  · simpa [if_pos hm] using h
  · simp [if_neg hm, List.nodup_append, h, hm]

/-- The stored items of the association list, in storage order. -/

theorem keysOf_eq_map_dumps_itemsOf (acc : List (RetrievedItem × ℚ)) :
    keysOf acc = (itemsOf acc).map dumps := by
  simp [keysOf, itemsOf, List.map_map, Function.comp]

theorem itemsOf_cons (p : RetrievedItem × ℚ) (rest : List (RetrievedItem × ℚ)) :
    itemsOf (p :: rest) = p.1 :: itemsOf rest := rfl

theorem keysOf_cons (p : RetrievedItem × ℚ) (rest : List (RetrievedItem × ℚ)) :
    keysOf (p :: rest) = dumps p.1 :: keysOf rest := rfl

theorem feStep_itemsOf (acc : List (RetrievedItem × ℚ)) (doc : RetrievedItem) :
    feStep (itemsOf acc) doc =
      if dumps doc ∈ keysOf acc then itemsOf acc else itemsOf acc ++ [doc] := by
  rw [feStep, ← keysOf_eq_map_dumps_itemsOf]

theorem itemsOf_addScore (acc : List (RetrievedItem × ℚ)) (doc : RetrievedItem) (c : ℚ) :
    itemsOf (addScore acc doc c) =
      if dumps doc ∈ keysOf acc then itemsOf acc else itemsOf acc ++ [doc] := by
  induction acc with
  | nil => simp [addScore, itemsOf, keysOf]
  | cons p rest ih =>
    obtain ⟨d, s⟩ := p
    by_cases h : dumps d = dumps doc
    · rw [addScore, if_pos h]
      have hmem : dumps doc ∈ keysOf ((d, s) :: rest) := by
        rw [keysOf_cons]
        exact List.mem_cons.mpr (Or.inl h.symm)
      rw [if_pos hmem, itemsOf_cons, itemsOf_cons]
    · rw [addScore, if_neg h]
      have hne : ¬dumps doc = dumps d := fun he => h he.symm
      by_cases hm : dumps doc ∈ keysOf rest
      · have hmem : dumps doc ∈ keysOf ((d, s) :: rest) := by
          rw [keysOf_cons]
          exact List.mem_cons_of_mem _ hm
        rw [if_pos hmem, itemsOf_cons, itemsOf_cons, ih, if_pos hm]
      · have hmem : dumps doc ∉ keysOf ((d, s) :: rest) := by
          rw [keysOf_cons]
          exact fun hx => (List.mem_cons.mp hx).elim hne hm
        rw [if_neg hmem, itemsOf_cons, itemsOf_cons, ih, if_neg hm,
          List.cons_append]

theorem listScoreFrom_nil (key : String) (k : ℚ) (n : ℕ) :
    listScoreFrom key k n [] = 0 := rfl

theorem listScoreFrom_cons (key : String) (k : ℚ) (n : ℕ) (d : RetrievedItem)
    (t : List RetrievedItem) :
    listScoreFrom key k n (d :: t) =
      (if dumps d = key then 1 / ((n : ℚ) + k) else 0) + listScoreFrom key k (n + 1) t := by
  simp [listScoreFrom, List.enumFrom]

/-- Running the inner scoring loop from rank `n` adds each matching
position's reciprocal to the key's stored score. -/

theorem assocScore_enumFrom_foldl (k : ℚ) (key : String) (docs : List RetrievedItem) :
    ∀ (n : ℕ) (acc : List (RetrievedItem × ℚ)),
      assocScore ((docs.enumFrom n).foldl
          (fun a p => addScore a p.2 (1 / ((p.1 : ℚ) + k))) acc) key
        = assocScore acc key + listScoreFrom key k n docs := by
  induction docs with
  | nil => intro n acc; simp [List.enumFrom, listScoreFrom_nil]
  | cons d t ih =>
    intro n acc
    simp only [List.enumFrom, List.foldl_cons]
    rw [ih, assocScore_addScore, listScoreFrom_cons]
    ring

theorem assocScore_scoreList (k : ℚ) (key : String) (acc : List (RetrievedItem × ℚ))
    (docs : List RetrievedItem) :
    assocScore (scoreList k acc docs) key = assocScore acc key + listScore key k docs := by
  rw [scoreList, List.enum, assocScore_enumFrom_foldl, listScore]

theorem itemsOf_enumFrom_foldl (k : ℚ) (docs : List RetrievedItem) :
    ∀ (n : ℕ) (acc : List (RetrievedItem × ℚ)),
      itemsOf ((docs.enumFrom n).foldl
          (fun a p => addScore a p.2 (1 / ((p.1 : ℚ) + k))) acc)
        = docs.foldl feStep (itemsOf acc) := by
  induction docs with
  | nil => intro n acc; simp [List.enumFrom]
  | cons d t ih =>
    intro n acc
    simp only [List.enumFrom, List.foldl_cons]
    rw [ih, itemsOf_addScore, feStep_itemsOf]

theorem itemsOf_scoreList (k : ℚ) (acc : List (RetrievedItem × ℚ))
    (docs : List RetrievedItem) :
    itemsOf (scoreList k acc docs) = docs.foldl feStep (itemsOf acc) := by
  rw [scoreList, List.enum, itemsOf_enumFrom_foldl]

theorem itemsOf_fusedScores_foldl (k : ℚ) :
    ∀ (results : List (List RetrievedItem)) (acc : List (RetrievedItem × ℚ)),
      itemsOf (results.foldl (scoreList k) acc)
        = (results.flatten).foldl feStep (itemsOf acc) := by
  intro results
  induction results with
  | nil => intro acc; simp
  | cons docs t ih =>
    intro acc
    simp only [List.foldl_cons, List.flatten_cons, List.foldl_append]
    rw [ih, itemsOf_scoreList]

theorem itemsOf_fusedScores (results : List (List RetrievedItem)) (k : ℚ) :
    itemsOf (fusedScores results k) = firstEncounterItems results.flatten := by
  rw [fusedScores, itemsOf_fusedScores_foldl, firstEncounterItems, itemsOf]
  simp

theorem assocScore_fusedScores_foldl (k : ℚ) (key : String) :
    ∀ (results : List (List RetrievedItem)) (acc : List (RetrievedItem × ℚ)),
      assocScore (results.foldl (scoreList k) acc) key
        = assocScore acc key + totalScore key k results := by
  intro results
  induction results with
  | nil => intro acc; simp [totalScore]
  | cons docs t ih =>
    intro acc
    simp only [List.foldl_cons]
    rw [ih, assocScore_scoreList]
    simp only [totalScore, List.map_cons, List.sum_cons]
    ring

/-- The dict built by `reciprocal_rank_fusion` stores, under each key, the
sum over all lists of that list's rank-reciprocal contribution. -/

theorem assocScore_fusedScores (results : List (List RetrievedItem)) (k : ℚ)
    (key : String) :
    assocScore (fusedScores results k) key = totalScore key k results := by
  rw [fusedScores, assocScore_fusedScores_foldl, assocScore_nil, zero_add]

theorem nodup_map_dumps_feStep (its : List RetrievedItem) (d : RetrievedItem)
    (h : (its.map dumps).Nodup) : ((feStep its d).map dumps).Nodup := by
  rw [feStep]
  by_cases hm : dumps d ∈ its.map dumps
  · rw [if_pos hm]
    exact h
  · rw [if_neg hm]
    simp [List.nodup_append, h, hm]

theorem nodup_map_dumps_feFold (l : List RetrievedItem) :
    ∀ (its : List RetrievedItem), (its.map dumps).Nodup →
      ((l.foldl feStep its).map dumps).Nodup := by
  induction l with
  | nil => intro its h; simpa using h
  | cons d t ih =>
    intro its h
    exact ih _ (nodup_map_dumps_feStep its d h)

theorem nodup_firstEncounterKeys (l : List RetrievedItem) :
    (firstEncounterKeys l).Nodup := by
  rw [firstEncounterKeys, firstEncounterItems]
  exact nodup_map_dumps_feFold l [] (by simp)

theorem nodup_keysOf_fusedScores (results : List (List RetrievedItem)) (k : ℚ) :
    (keysOf (fusedScores results k)).Nodup := by
  rw [keysOf_eq_map_dumps_itemsOf, itemsOf_fusedScores]
  exact nodup_firstEncounterKeys _

theorem mem_map_dumps_feStep (its : List RetrievedItem) (d : RetrievedItem)
    (key : String) :
    key ∈ (feStep its d).map dumps ↔ key ∈ its.map dumps ∨ key = dumps d := by
  rw [feStep]
  by_cases hm : dumps d ∈ its.map dumps
  · rw [if_pos hm]
    constructor
    · exact fun h => Or.inl h
    · rintro (h | rfl)
      · exact h
      · exact hm
  · rw [if_neg hm]
    simp

theorem mem_map_dumps_feFold (l : List RetrievedItem) :
    ∀ (its : List RetrievedItem) (key : String),
      key ∈ (l.foldl feStep its).map dumps ↔
        key ∈ its.map dumps ∨ key ∈ l.map dumps := by
  induction l with
  | nil => intro its key; simp
  | cons d t ih =>
    intro its key
    simp only [List.foldl_cons, ih, mem_map_dumps_feStep, List.map_cons,
      List.mem_cons]
    tauto

/-- The distinct keys of the fused dict are exactly the keys occurring in the
input lists. -/

theorem mem_keysOf_fusedScores (results : List (List RetrievedItem)) (k : ℚ)
    (key : String) :
    key ∈ keysOf (fusedScores results k) ↔ key ∈ (results.flatten).map dumps := by
  rw [keysOf_eq_map_dumps_itemsOf, itemsOf_fusedScores, firstEncounterItems,
    mem_map_dumps_feFold]
  simp

theorem assocScore_eq_zero_of_not_mem (acc : List (RetrievedItem × ℚ))
    (key : String) (h : key ∉ keysOf acc) : assocScore acc key = 0 := by
  induction acc with
  | nil => rfl
  | cons p rest ih =>
    obtain ⟨d0, s0⟩ := p
    simp only [keysOf, List.map_cons, List.mem_cons, not_or] at h
    rw [assocScore_cons, if_neg (fun he => h.1 he.symm), ih h.2, add_zero]

/-- With distinct keys, the stored value under an entry's key is that
entry's value. -/

theorem assocScore_of_mem (acc : List (RetrievedItem × ℚ))
    (hnd : (keysOf acc).Nodup) {d : RetrievedItem} {s : ℚ} (hm : (d, s) ∈ acc) :
    assocScore acc (dumps d) = s := by
  induction acc with
  | nil => cases hm
  | cons p rest ih =>
    obtain ⟨d0, s0⟩ := p
    simp only [keysOf, List.map_cons, List.nodup_cons] at hnd
    rcases List.mem_cons.mp hm with h | h
    · injection h with h1 h2
      subst h1
      subst h2
      rw [assocScore_cons, if_pos rfl,
        assocScore_eq_zero_of_not_mem rest (dumps d) hnd.1, add_zero]
    · have hmem : dumps d ∈ keysOf rest := by
        rw [keysOf]
        exact List.mem_map.mpr ⟨(d, s), h, rfl⟩
      have hne : dumps d0 ≠ dumps d := fun he => hnd.1 (he ▸ hmem)
      rw [assocScore_cons, if_neg hne, ih hnd.2 h, zero_add]

theorem insertByScore_perm (x : RetrievedItem × ℚ) :
    ∀ (l : List (RetrievedItem × ℚ)), List.Perm (insertByScore x l) (x :: l) := by
  intro l
  induction l with
  | nil => rfl
  | cons y ys ih =>
    rw [insertByScore]
    by_cases h : y.2 ≤ x.2
    · rw [if_pos h]
    · rw [if_neg h]
      exact (ih.cons y).trans (List.Perm.swap x y ys)

theorem sortByScoreDesc_perm (l : List (RetrievedItem × ℚ)) :
    List.Perm (sortByScoreDesc l) l := by
  induction l with
  | nil => rfl
  | cons x t ih =>
    exact (insertByScore_perm x (sortByScoreDesc t)).trans (ih.cons x)

theorem mem_insertByScore (x z : RetrievedItem × ℚ) (l : List (RetrievedItem × ℚ)) :
    z ∈ insertByScore x l ↔ z = x ∨ z ∈ l := by
  rw [(insertByScore_perm x l).mem_iff, List.mem_cons]

/-- Inserting into a descending-pairwise list keeps it descending. -/

theorem insertByScore_pairwise (x : RetrievedItem × ℚ) :
    ∀ (l : List (RetrievedItem × ℚ)),
      l.Pairwise (fun a b => b.2 ≤ a.2) →
      (insertByScore x l).Pairwise (fun a b => b.2 ≤ a.2) := by
  intro l
  induction l with
  | nil => intro _; simp [insertByScore]
  | cons y ys ih =>
    intro h
    rw [insertByScore]
    by_cases hle : y.2 ≤ x.2
    · rw [if_pos hle]
      refine List.Pairwise.cons ?_ h
      intro z hz
      rcases List.mem_cons.mp hz with rfl | hz
      · exact hle
      · exact le_trans ((List.pairwise_cons.mp h).1 z hz) hle
    · rw [if_neg hle]
      have hlt : x.2 ≤ y.2 := le_of_lt (lt_of_not_le hle)
      refine List.Pairwise.cons ?_ (ih (List.pairwise_cons.mp h).2)
      intro z hz
      rcases (mem_insertByScore x z ys).mp hz with rfl | hz
      · exact hlt
      · exact (List.pairwise_cons.mp h).1 z hz

/-- The output of the stable descending sort is descending. -/

theorem sortByScoreDesc_pairwise (l : List (RetrievedItem × ℚ)) :
    (sortByScoreDesc l).Pairwise (fun a b => b.2 ≤ a.2) := by
  induction l with
  | nil => simp [sortByScoreDesc]
  | cons x t ih => exact insertByScore_pairwise x _ ih

/-- Insertion never disturbs the relative order of entries carrying any one
score: the new entry lands before every stored entry with its score. -/

theorem filter_score_insertByScore (x : RetrievedItem × ℚ) (s : ℚ) :
    ∀ (l : List (RetrievedItem × ℚ)),
      (insertByScore x l).filter (fun p => decide (p.2 = s)) =
        if x.2 = s then x :: l.filter (fun p => decide (p.2 = s))
        else l.filter (fun p => decide (p.2 = s)) := by
  intro l
  induction l with
  | nil =>
    by_cases hx : x.2 = s <;> simp [insertByScore, hx]
  | cons y ys ih =>
    rw [insertByScore]
    by_cases hle : y.2 ≤ x.2
    · rw [if_pos hle]
      by_cases hx : x.2 = s <;> simp [List.filter_cons, hx]
    · rw [if_neg hle]
      have hlt : x.2 < y.2 := lt_of_not_le hle
      by_cases hy : y.2 = s
      · have hx : ¬x.2 = s := ne_of_lt (hy ▸ hlt)
        simp [List.filter_cons, hy, ih, hx]
      · by_cases hx : x.2 = s <;> simp [List.filter_cons, hy, ih, hx]

/-- Stability of the sort: for every score, the entries carrying that score
appear in the output exactly in their input order. -/

theorem filter_score_sortByScoreDesc (l : List (RetrievedItem × ℚ)) (s : ℚ) :
    (sortByScoreDesc l).filter (fun p => decide (p.2 = s)) =
      l.filter (fun p => decide (p.2 = s)) := by
  induction l with
  | nil => rfl
  | cons x t ih =>
    show (insertByScore x (sortByScoreDesc t)).filter _ = _
    rw [filter_score_insertByScore]
    by_cases hx : x.2 = s <;> simp [List.filter_cons, hx, ih]

theorem pos_addScore (acc : List (RetrievedItem × ℚ)) (doc : RetrievedItem)
    (c : ℚ) (hc : 0 < c) (h : ∀ p ∈ acc, 0 < p.2) :
    ∀ p ∈ addScore acc doc c, 0 < p.2 := by
  induction acc with
  | nil =>
    intro p hp
    rcases List.mem_singleton.mp hp with rfl
    exact hc
  | cons q rest ih =>
    obtain ⟨d0, s0⟩ := q
    intro p hp
    rw [addScore] at hp
    by_cases he : dumps d0 = dumps doc
    · rw [if_pos he] at hp
      rcases List.mem_cons.mp hp with rfl | hp
      · have h0 : 0 < s0 := h (d0, s0) (List.mem_cons_self _ _)
        exact add_pos h0 hc
      · exact h p (List.mem_cons_of_mem _ hp)
    · rw [if_neg he] at hp
      rcases List.mem_cons.mp hp with rfl | hp
      · exact h (d0, s0) (List.mem_cons_self _ _)
      · exact ih (fun q hq => h q (List.mem_cons_of_mem _ hq)) p hp

theorem pos_rank_contribution (k : ℚ) (hk : 0 < k) (n : ℕ) :
    0 < 1 / ((n : ℚ) + k) := by
  have hd : 0 < (n : ℚ) + k := add_pos_of_nonneg_of_pos (Nat.cast_nonneg n) hk
  positivity

theorem pos_enumFrom_foldl (k : ℚ) (hk : 0 < k) (docs : List RetrievedItem) :
    ∀ (n : ℕ) (acc : List (RetrievedItem × ℚ)), (∀ p ∈ acc, 0 < p.2) →
      ∀ p ∈ (docs.enumFrom n).foldl
          (fun a q => addScore a q.2 (1 / ((q.1 : ℚ) + k))) acc, 0 < p.2 := by
  induction docs with
  | nil => intro n acc h; simpa [List.enumFrom] using h
  | cons d t ih =>
    intro n acc h
    simp only [List.enumFrom, List.foldl_cons]
    exact ih (n + 1) _ (pos_addScore acc d _ (pos_rank_contribution k hk n) h)

theorem pos_fusedScores (results : List (List RetrievedItem)) (k : ℚ) (hk : 0 < k) :
    ∀ p ∈ fusedScores results k, 0 < p.2 := by
  rw [fusedScores]
  have main : ∀ (rs : List (List RetrievedItem)) (acc : List (RetrievedItem × ℚ)),
      (∀ p ∈ acc, 0 < p.2) → ∀ p ∈ rs.foldl (scoreList k) acc, 0 < p.2 := by
    intro rs
    induction rs with
    | nil => intro acc h; simpa using h
    | cons docs t ih =>
      intro acc h
      simp only [List.foldl_cons]
      refine ih _ ?_
      rw [scoreList, List.enum]
      exact pos_enumFrom_foldl k hk docs 0 acc h
  exact main results [] (by simp)

theorem hasZeroDenominator_eq_false_of_pos (results : List (List RetrievedItem))
    (k : ℚ) (hk : 0 < k) : hasZeroDenominator results k = false := by
  rw [hasZeroDenominator]
  simp only [List.any_eq_false, decide_eq_true_eq, List.any_eq_true, List.mem_range,
    not_exists, not_and]
  intro docs _ r _
  have hd : 0 < (r : ℚ) + k := add_pos_of_nonneg_of_pos (Nat.cast_nonneg r) hk
  exact ne_of_gt hd

theorem hasZeroDenominator_eq_true_iff (results : List (List RetrievedItem)) (k : ℚ) :
    hasZeroDenominator results k = true ↔
      ∃ docs ∈ results, ∃ r < docs.length, (r : ℚ) + k = 0 := by
  rw [hasZeroDenominator]
  simp

theorem sortByScoreDesc_nil : sortByScoreDesc [] = [] := rfl

theorem sortByScoreDesc_cons (x : RetrievedItem × ℚ) (l : List (RetrievedItem × ℚ)) :
    sortByScoreDesc (x :: l) = insertByScore x (sortByScoreDesc l) := rfl

/-- Fully evaluated engine run on a single one-document list with the
default smoothing constant. -/

theorem run_single_sampleA :
    reciprocal_rank_fusion [[sampleA]] 60 = .ok [(sampleA, (1 : ℚ)/60)] := by
  have hz : hasZeroDenominator [[sampleA]] 60 = false := by
    norm_num [hasZeroDenominator, List.range_succ]
  have hf : fusedScores [[sampleA]] 60 = [(sampleA, (1 : ℚ)/60)] := by
    norm_num [fusedScores, scoreList, List.enum, List.enumFrom, addScore]
  simp only [reciprocal_rank_fusion]
  rw [if_neg (by rw [hz]; simp), hf, sortByScoreDesc_cons, sortByScoreDesc_nil]
  rfl

/-- C1: whenever the reciprocal-rank fusion engine returns (no division hit
zero; in particular for every k > 0), each entry of its output carries, as
fused score, exactly the sum over every input list of `1 / (r + k)` at the
zero-based positions `r` where that list holds a document with the entry's
serialization key — a list not containing the key contributing exactly 0,
since `listScore` sums over matching positions only; and every unique
document of the inputs is represented by exactly such an entry. -/

theorem rrf_score_is_sum_of_rank_reciprocals
    (results : List (List RetrievedItem)) (k : ℚ) (out : List (RetrievedItem × ℚ))
    (h : reciprocal_rank_fusion results k = .ok out) :
    (∀ d s, (d, s) ∈ out → s = totalScore (dumps d) k results) ∧
      ∀ docs ∈ results, ∀ doc ∈ docs, ∃ p ∈ out, dumps p.1 = dumps doc := by
  rw [reciprocal_rank_fusion] at h
  by_cases hz : hasZeroDenominator results k = true
  · rw [if_pos hz] at h
    cases h
  · rw [if_neg hz] at h
    injection h with h
    constructor
    · intro d s hm
      rw [← h] at hm
      have hm2 : (d, s) ∈ fusedScores results k :=
        (sortByScoreDesc_perm _).mem_iff.mp hm
      rw [← assocScore_fusedScores results k (dumps d)]
      exact (assocScore_of_mem _ (nodup_keysOf_fusedScores results k) hm2).symm
    · intro docs hdocs doc hdoc
      have hkey : dumps doc ∈ keysOf (fusedScores results k) := by
        rw [mem_keysOf_fusedScores]
        exact List.mem_map.mpr ⟨doc, List.mem_flatten.mpr ⟨docs, hdocs, hdoc⟩, rfl⟩
      rw [keysOf] at hkey
      obtain ⟨p, hp, hpk⟩ := List.mem_map.mp hkey
      exact ⟨p, h ▸ (sortByScoreDesc_perm (fusedScores results k)).mem_iff.mpr hp, hpk⟩

/-- C1 witness: instantiation on one singleton list with k = 60. -/

theorem rrf_score_is_sum_of_rank_reciprocals_witness :
    (∀ d s, (d, s) ∈ [(sampleA, (1 : ℚ)/60)] → s = totalScore (dumps d) 60 [[sampleA]]) ∧
      ∀ docs ∈ [[sampleA]], ∀ doc ∈ docs, ∃ p ∈ [(sampleA, (1 : ℚ)/60)], dumps p.1 = dumps doc :=
  rrf_score_is_sum_of_rank_reciprocals [[sampleA]] 60 [(sampleA, (1 : ℚ)/60)] run_single_sampleA

/-- C2: whenever the engine returns, its output holds exactly the distinct
serialization keys of the inputs, each exactly once (a permutation of the
unique-document set), with fused scores non-increasing along the output, and
entries of equal fused score ordered by first encounter across the input
lists (their key sequence is a subsequence of the first-encounter key
order). -/

theorem rrf_output_permutation_sorted_stable
    (results : List (List RetrievedItem)) (k : ℚ) (out : List (RetrievedItem × ℚ))
    (h : reciprocal_rank_fusion results k = .ok out) :
    (∀ key : String,
        key ∈ out.map (fun p => dumps p.1) ↔ key ∈ (results.flatten).map dumps) ∧
      (out.map fun p => dumps p.1).Nodup ∧
      out.Pairwise (fun a b => b.2 ≤ a.2) ∧
      ∀ s : ℚ, List.Sublist
        ((out.filter fun p => decide (p.2 = s)).map fun p => dumps p.1)
        (firstEncounterKeys results.flatten) := by
  rw [reciprocal_rank_fusion] at h
  by_cases hz : hasZeroDenominator results k = true
  · rw [if_pos hz] at h
    cases h
  · rw [if_neg hz] at h
    injection h with h
    subst h
    have hperm : List.Perm
        ((sortByScoreDesc (fusedScores results k)).map fun p => dumps p.1)
        (keysOf (fusedScores results k)) :=
      (sortByScoreDesc_perm (fusedScores results k)).map fun p => dumps p.1
    refine ⟨?_, ?_, sortByScoreDesc_pairwise _, ?_⟩
    · intro key
      rw [hperm.mem_iff, mem_keysOf_fusedScores]
    · exact hperm.nodup_iff.mpr (nodup_keysOf_fusedScores results k)
    · intro s
      rw [filter_score_sortByScoreDesc]
      have hsub : List.Sublist
          ((fusedScores results k).filter fun p => decide (p.2 = s))
          (fusedScores results k) := List.filter_sublist _
      have hsubm := hsub.map fun p => dumps p.1
      rw [show ((fusedScores results k).map fun p => dumps p.1)
          = keysOf (fusedScores results k) from rfl,
        keysOf_eq_map_dumps_itemsOf, itemsOf_fusedScores] at hsubm
      exact hsubm

/-- C2 witness: instantiation on one singleton list with k = 60. -/

theorem rrf_output_permutation_sorted_stable_witness :
    (∀ key : String,
        key ∈ [(sampleA, (1 : ℚ)/60)].map (fun p => dumps p.1) ↔
          key ∈ ([[sampleA]] : List (List RetrievedItem)).flatten.map dumps) ∧
      ([(sampleA, (1 : ℚ)/60)].map fun p => dumps p.1).Nodup ∧
      ([(sampleA, (1 : ℚ)/60)] : List (RetrievedItem × ℚ)).Pairwise (fun a b => b.2 ≤ a.2) ∧
      ∀ s : ℚ, List.Sublist
        (([(sampleA, (1 : ℚ)/60)].filter fun p => decide (p.2 = s)).map fun p => dumps p.1)
        (firstEncounterKeys ([[sampleA]] : List (List RetrievedItem)).flatten) :=
  rrf_output_permutation_sorted_stable [[sampleA]] 60 [(sampleA, (1 : ℚ)/60)] run_single_sampleA

/-- C10: for every k > 0 every denominator `rank + k` is strictly positive,
so the scoring loop never divides by zero, the engine never raises, and every
fused score in the output is strictly positive. -/

theorem rrf_total_and_positive_for_pos_k
    (results : List (List RetrievedItem)) (k : ℚ) (hk : 0 < k) :
    hasZeroDenominator results k = false ∧
      ∃ out, reciprocal_rank_fusion results k = .ok out ∧ ∀ p ∈ out, 0 < p.2 := by
  have hz := hasZeroDenominator_eq_false_of_pos results k hk
  refine ⟨hz, sortByScoreDesc (fusedScores results k), ?_, ?_⟩
  · rw [reciprocal_rank_fusion, hz]
    simp
  · intro p hp
    exact pos_fusedScores results k hk p ((sortByScoreDesc_perm _).mem_iff.mp hp)

/-- C10 witness: instantiation on one singleton list with k = 60. -/

theorem rrf_total_and_positive_for_pos_k_witness :
    hasZeroDenominator [[sampleA]] 60 = false ∧
      ∃ out, reciprocal_rank_fusion [[sampleA]] 60 = .ok out ∧ ∀ p ∈ out, 0 < p.2 :=
  rrf_total_and_positive_for_pos_k [[sampleA]] 60 (by norm_num)

/-- C4 counterexample: at k = -1 ≤ 0, on input `[[sampleA]]`, the engine
raises no error at all — in particular no configuration error before
scoring — and returns the scored result `[(sampleA, -1)]`; the source
contains no validation of `k` and no InvalidConfigError. -/

theorem rrf_no_invalid_config_error_counterexample :
    reciprocal_rank_fusion [[sampleA]] (-1) = .ok [(sampleA, -1)] := by
  have hz : hasZeroDenominator [[sampleA]] (-1) = false := by
    norm_num [hasZeroDenominator, List.range_succ]
  have hf : fusedScores [[sampleA]] (-1) = [(sampleA, (-1 : ℚ))] := by
    norm_num [fusedScores, scoreList, List.enum, List.enumFrom, addScore]
  simp only [reciprocal_rank_fusion]
  rw [if_neg (by rw [hz]; simp), hf, sortByScoreDesc_cons, sortByScoreDesc_nil]
  rfl

/-- C4 amended: the engine performs no validation of `k` and cannot raise a
configuration error (its only error is the scoring loop's division by zero).
For every input and every `k`, the run fails — with `ZeroDivisionError`,
during scoring — exactly when some zero-based rank `r` of some input list
satisfies `r + k = 0`; every other run, those with `k ≤ 0` included,
completes normally. -/

theorem rrf_error_iff_zero_denominator
    (results : List (List RetrievedItem)) (k : ℚ) :
    (∃ e, reciprocal_rank_fusion results k = .error e) ↔
      ∃ docs ∈ results, ∃ r < docs.length, (r : ℚ) + k = 0 := by
  rw [← hasZeroDenominator_eq_true_iff, reciprocal_rank_fusion]
  by_cases hz : hasZeroDenominator results k = true
  · rw [if_pos hz]
    exact ⟨fun _ => hz, fun _ => ⟨.zeroDivisionError, rfl⟩⟩
  · rw [if_neg hz]
    constructor
    · rintro ⟨e, he⟩
      cases he
    · intro h
      exact absurd h hz

/-- C8: two runs of the engine on identical inputs with the same k produce
identical results — the embedding is a pure function, and in the source both
dict iteration order (insertion order) and `sorted` are deterministic. -/

theorem rrf_deterministic (results1 results2 : List (List RetrievedItem))
    (k1 k2 : ℚ) (h1 : results1 = results2) (h2 : k1 = k2) :
    reciprocal_rank_fusion results1 k1 = reciprocal_rank_fusion results2 k2 := by
  rw [h1, h2]

/-- C8 witness: instantiation of determinism on a concrete run. -/

theorem rrf_deterministic_witness :
    reciprocal_rank_fusion [[sampleA, sampleB]] 60 =
      reciprocal_rank_fusion [[sampleA, sampleB]] 60 :=
  rrf_deterministic [[sampleA, sampleB]] [[sampleA, sampleB]] 60 60 rfl rfl

/-- C3: on the input lists `[[A, B, C], [B, C, D]]` of pairwise-distinct
documents with k = 60, the engine computes fused scores A = 1/60,
B = 1/61 + 1/60, C = 1/62 + 1/61, D = 1/62 and returns the order
[B, C, A, D]. -/

theorem rrf_scenario_two_lists (A B C D : RetrievedItem)
    (hAB : dumps A ≠ dumps B) (hAC : dumps A ≠ dumps C) (hAD : dumps A ≠ dumps D)
    (hBC : dumps B ≠ dumps C) (hBD : dumps B ≠ dumps D) (hCD : dumps C ≠ dumps D) :
    reciprocal_rank_fusion [[A, B, C], [B, C, D]] 60 =
      .ok [(B, 1/61 + 1/60), (C, 1/62 + 1/61), (A, 1/60), (D, 1/62)] := by
  have hz : hasZeroDenominator [[A, B, C], [B, C, D]] 60 = false := by
    norm_num [hasZeroDenominator, List.range_succ]
  have hf : fusedScores [[A, B, C], [B, C, D]] 60 =
      [(A, 1/60), (B, 1/61 + 1/60), (C, 1/62 + 1/61), (D, 1/62)] := by
    simp [fusedScores, scoreList, List.enum, List.enumFrom, addScore,
      hAB, hAC, hAD, hBC, hBD, hCD, Ne.symm hAB, Ne.symm hAC, Ne.symm hAD,
      Ne.symm hBC, Ne.symm hBD, Ne.symm hCD]
    norm_num
  have h1 : insertByScore ((D : RetrievedItem), (1/62 : ℚ)) [] = [(D, 1/62)] := rfl
  have h2 : insertByScore ((C : RetrievedItem), (1/62 + 1/61 : ℚ)) [(D, 1/62)] =
      [(C, 1/62 + 1/61), (D, 1/62)] := by
    rw [insertByScore, if_pos (by norm_num)]
  have h3 : insertByScore ((B : RetrievedItem), (1/61 + 1/60 : ℚ))
      [(C, 1/62 + 1/61), (D, 1/62)] =
      [(B, 1/61 + 1/60), (C, 1/62 + 1/61), (D, 1/62)] := by
    rw [insertByScore, if_pos (by norm_num)]
  have h4 : insertByScore ((A : RetrievedItem), (1/60 : ℚ))
      [(B, 1/61 + 1/60), (C, 1/62 + 1/61), (D, 1/62)] =
      [(B, 1/61 + 1/60), (C, 1/62 + 1/61), (A, 1/60), (D, 1/62)] := by
    rw [insertByScore, if_neg (by norm_num), insertByScore, if_neg (by norm_num),
      insertByScore, if_pos (by norm_num)]
  simp only [reciprocal_rank_fusion]
  rw [if_neg (by rw [hz]; simp), hf, sortByScoreDesc_cons, sortByScoreDesc_cons,
    sortByScoreDesc_cons, sortByScoreDesc_cons, sortByScoreDesc_nil, h1, h2, h3, h4]

/-- C3 witness: the scenario instantiated with the four concrete sample
documents. -/

theorem rrf_scenario_two_lists_witness :
    reciprocal_rank_fusion [[sampleA, sampleB, sampleC], [sampleB, sampleC, sampleD]] 60 =
      .ok [(sampleB, 1/61 + 1/60), (sampleC, 1/62 + 1/61), (sampleA, 1/60), (sampleD, 1/62)] :=
  rrf_scenario_two_lists sampleA sampleB sampleC sampleD
    sample_keys_distinct.1 sample_keys_distinct.2.1 sample_keys_distinct.2.2.1
    sample_keys_distinct.2.2.2.1 sample_keys_distinct.2.2.2.2.1
    sample_keys_distinct.2.2.2.2.2

/-- C5 amended: the identity key is injective in, and determined by, the
pair of `content` and the ORDERED metadata association list: two items share
a key exactly when their content and their metadata sequences (key order
included) coincide, and the retrieval score never enters the key.  Key
insertion order within the metadata mapping does change the key
(`json.dumps` is not passed `sort_keys`), contrary to the original claim. -/

theorem dumps_key_characterization (d1 d2 : RetrievedItem) :
    (dumps d1 = dumps d2 ↔
      d1.page_content = d2.page_content ∧ d1.metadata = d2.metadata) ∧
      ∀ s : Option ℚ, dumps ⟨d1.page_content, d1.metadata, s⟩ = dumps d1 := by
  constructor
  · exact dumps_eq_iff d1 d2
  · intro s
    exact (dumps_eq_iff _ _).mpr ⟨rfl, rfl⟩

/-- C9 counterexample: when the generation collaborator returns the empty
text — zero usable variants — the chain's parse stage silently yields the
single empty-string variant and raises nothing; no VariantGenerationError
exists anywhere in the code. -/

theorem chain_parse_empty_output : chain_generate_queries "" = [""] := by decide

theorem splitOnDoubleNewline_ne_nil (s : List Char) : splitOnDoubleNewline s ≠ [] := by
  rw [splitOnDoubleNewline.eq_def]
  split
  · simp
  · split <;> simp
  · simp

/-- C9 amended: the parse stage of `chain_generate_queries` is a total
function — `split` on the double-newline delimiter — with no error path: it
always returns at least one variant string (never an empty list), but that
string may itself be empty and unusable, and no VariantGenerationError is
raised in that case. -/

theorem chain_parse_always_nonempty (x : String) :
    1 ≤ (chain_generate_queries x).length := by
  rw [chain_generate_queries, List.length_map]
  exact List.length_pos.mpr (splitOnDoubleNewline_ne_nil x.data)

theorem find?_filter_of_imp {p q : RetrievedItem → Bool} :
    ∀ (l : List RetrievedItem) (y : RetrievedItem),
      (∀ x, p x = true → q x = true) →
      (l.filter q).find? p = some y → l.find? p = some y := by
  intro l
  induction l with
  | nil => intro y _ h; simp at h
  | cons x t ih =>
    intro y hpq h
    by_cases hq : q x = true
    · rw [List.filter_cons_of_pos hq] at h
      by_cases hp : p x = true
      · rw [List.find?_cons_of_pos _ hp] at h ⊢
        exact h
      · rw [List.find?_cons_of_neg _ (by simp [hp])] at h ⊢
        exact ih y hpq h
    · rw [List.filter_cons_of_neg (by simp [hq])] at h
      have hp : ¬p x = true := fun hp => hq (hpq x hp)
      rw [List.find?_cons_of_neg _ (by simp [hp])]
      exact ih y hpq h

theorem mem_map_dumps_uniqueByKey :
    ∀ (l : List RetrievedItem) (key : String),
      key ∈ (uniqueByKey l).map dumps ↔ key ∈ l.map dumps := by
  intro l
  induction l using uniqueByKey.induct with
  | case1 => intro key; rw [uniqueByKey]
  | case2 d rest ih =>
    intro key
    rw [uniqueByKey]
    by_cases hk : key = dumps d
    · subst hk
      simp
    · simp only [List.map_cons, List.mem_cons, ih, List.mem_map, List.mem_filter]
      constructor
      · rintro (h | ⟨e, ⟨he, _⟩, rfl⟩)
        · exact absurd h hk
        · exact Or.inr ⟨e, he, rfl⟩
      · rintro (h | ⟨e, he, rfl⟩)
        · exact absurd h hk
        · refine Or.inr ⟨e, ⟨he, ?_⟩, rfl⟩
          simp only [decide_eq_true_eq]
          exact fun hc => hk (hc ▸ rfl)

theorem nodup_map_dumps_uniqueByKey :
    ∀ (l : List RetrievedItem), ((uniqueByKey l).map dumps).Nodup := by
  intro l
  induction l using uniqueByKey.induct with
  | case1 => rw [uniqueByKey]; simp
  | case2 d rest ih =>
    rw [uniqueByKey]
    simp only [List.map_cons, List.nodup_cons]
    refine ⟨?_, ih⟩
    rw [mem_map_dumps_uniqueByKey]
    simp only [List.mem_map, List.mem_filter, not_exists, not_and]
    rintro e ⟨-, hne⟩
    simp only [decide_eq_true_eq] at hne
    exact fun hc => hne hc

theorem length_uniqueByKey :
    ∀ (l : List RetrievedItem), (uniqueByKey l).length = (l.map dumps).toFinset.card := by
  intro l
  induction l using uniqueByKey.induct with
  | case1 => rw [uniqueByKey]; simp
  | case2 d rest ih =>
    rw [uniqueByKey]
    simp only [List.length_cons, ih]
    have hmapfil : (rest.filter fun e => decide ¬dumps e = dumps d).map dumps
        = (rest.map dumps).filter fun k => decide ¬k = dumps d := by
      clear ih
      induction rest with
      | nil => rfl
      | cons e t iht =>
        by_cases he : dumps e = dumps d
        · rw [List.filter_cons_of_neg (by simp [he]), List.map_cons,
            List.filter_cons_of_neg (by simp [he])]
          exact iht
        · rw [List.filter_cons_of_pos (by simp [he]), List.map_cons, List.map_cons,
            List.filter_cons_of_pos (by simp [he])]
          rw [iht]
    rw [hmapfil, List.toFinset_filter, List.map_cons, List.toFinset_cons]
    have herase : ((rest.map dumps).toFinset.filter fun k => decide ¬k = dumps d)
        = (rest.map dumps).toFinset.erase (dumps d) := by
      ext x
      simp [Finset.mem_erase, Finset.mem_filter, and_comm]
    rw [herase]
    have hins : insert (dumps d) (rest.map dumps).toFinset
        = insert (dumps d) ((rest.map dumps).toFinset.erase (dumps d)) := by
      ext x
      by_cases hx : x = dumps d <;> simp [Finset.mem_insert, Finset.mem_erase, hx]
    rw [hins, Finset.card_insert_of_not_mem (Finset.not_mem_erase _ _)]

theorem find?_uniqueByKey :
    ∀ (l : List RetrievedItem), ∀ d ∈ uniqueByKey l,
      l.find? (fun e => dumps e == dumps d) = some d := by
  intro l
  induction l using uniqueByKey.induct with
  | case1 => intro d hd; rw [uniqueByKey] at hd; cases hd
  | case2 d0 rest ih =>
    intro d hd
    rw [uniqueByKey] at hd
    rcases List.mem_cons.mp hd with rfl | hd
    · rw [List.find?_cons_of_pos _ (by simp)]
    · have hdm : dumps d ∈ (rest.filter fun e => decide ¬dumps e = dumps d0).map dumps := by
        rw [← mem_map_dumps_uniqueByKey]
        exact List.mem_map.mpr ⟨d, hd, rfl⟩
      have hne : dumps d ≠ dumps d0 := by
        obtain ⟨e, hef, hek⟩ := List.mem_map.mp hdm
        have := (List.mem_filter.mp hef).2
        simp only [decide_eq_true_eq] at this
        exact hek ▸ this
      rw [List.find?_cons_of_neg _ (by simp [Ne.symm hne])]
      refine find?_filter_of_imp rest d ?_ (ih d hd)
      intro x hx
      simp only [beq_iff_eq] at hx
      simp only [decide_eq_true_eq]
      rw [hx]
      exact hne

/-- C6: the unique-union combiner returns exactly one representative per
distinct serialization key: its size equals the number of distinct keys
across all inputs and is therefore at most the sum of the input list
lengths; each returned document is the first occurrence of its key in the
flattened input (content preserved); no key repeats.  (The Python
`list(set(...))` materializes the distinct keys in arbitrary order;
every fact stated here is insensitive to that order.) -/

theorem unique_union_card_and_first_occurrence (documents : List (List RetrievedItem)) :
    (get_unique_union documents).length = ((documents.flatten).map dumps).toFinset.card ∧
      (get_unique_union documents).length ≤ (documents.map List.length).sum ∧
      (∀ key : String,
        key ∈ (get_unique_union documents).map dumps ↔
          key ∈ (documents.flatten).map dumps) ∧
      ((get_unique_union documents).map dumps).Nodup ∧
      ∀ d ∈ get_unique_union documents,
        (documents.flatten).find? (fun e => dumps e == dumps d) = some d := by
  rw [get_unique_union]
  refine ⟨length_uniqueByKey _, ?_, fun key => mem_map_dumps_uniqueByKey _ key,
    nodup_map_dumps_uniqueByKey _, find?_uniqueByKey _⟩
  rw [length_uniqueByKey]
  calc ((documents.flatten).map dumps).toFinset.card
      ≤ ((documents.flatten).map dumps).length := List.toFinset_card_le _
    _ = (documents.flatten).length := List.length_map _ _
    _ = (documents.map List.length).sum := List.length_flatten _

/-- C6 witness: instantiation on two overlapping two-document lists. -/

theorem unique_union_card_and_first_occurrence_witness :
    (get_unique_union [[sampleA, sampleB], [sampleB, sampleC]]).length =
        (([[sampleA, sampleB], [sampleB, sampleC]] :
          List (List RetrievedItem)).flatten.map dumps).toFinset.card ∧
      (get_unique_union [[sampleA, sampleB], [sampleB, sampleC]]).length ≤
        (([[sampleA, sampleB], [sampleB, sampleC]] :
          List (List RetrievedItem)).map List.length).sum ∧
      (∀ key : String,
        key ∈ (get_unique_union [[sampleA, sampleB], [sampleB, sampleC]]).map dumps ↔
          key ∈ (([[sampleA, sampleB], [sampleB, sampleC]] :
            List (List RetrievedItem)).flatten.map dumps)) ∧
      ((get_unique_union [[sampleA, sampleB], [sampleB, sampleC]]).map dumps).Nodup ∧
      ∀ d ∈ get_unique_union [[sampleA, sampleB], [sampleB, sampleC]],
        (([[sampleA, sampleB], [sampleB, sampleC]] :
          List (List RetrievedItem)).flatten).find? (fun e => dumps e == dumps d) = some d :=
  unique_union_card_and_first_occurrence [[sampleA, sampleB], [sampleB, sampleC]]

theorem assoc_ext :
    ∀ (l1 l2 : List (RetrievedItem × ℚ)),
      itemsOf l1 = itemsOf l2 → (keysOf l1).Nodup →
      (∀ key, assocScore l1 key = assocScore l2 key) → l1 = l2 := by
  intro l1
  induction l1 with
  | nil =>
    intro l2 hf _ _
    cases l2 with
    | nil => rfl
    | cons q t2 => simp [itemsOf] at hf
  | cons p t1 ih =>
    intro l2 hf hnd hsc
    obtain ⟨d1, s1⟩ := p
    cases l2 with
    | nil => simp [itemsOf] at hf
    | cons q t2 =>
      obtain ⟨d2, s2⟩ := q
      simp only [itemsOf, List.map_cons, List.cons.injEq] at hf
      obtain ⟨hd, ht⟩ := hf
      subst hd
      simp only [keysOf, List.map_cons, List.nodup_cons] at hnd
      have hkeys12 : keysOf t1 = keysOf t2 := by
        rw [keysOf_eq_map_dumps_itemsOf, keysOf_eq_map_dumps_itemsOf]
        simp only [itemsOf]
        rw [ht]
      have hnd2 : dumps d1 ∉ keysOf t2 := by
        rw [← hkeys12]
        exact hnd.1
      have h1 := hsc (dumps d1)
      rw [assocScore_cons, assocScore_cons, if_pos rfl, if_pos rfl,
        assocScore_eq_zero_of_not_mem t1 _ hnd.1,
        assocScore_eq_zero_of_not_mem t2 _ hnd2, add_zero, add_zero] at h1
      subst h1
      have htail : t1 = t2 := by
        refine ih t2 ht hnd.2 ?_
        intro key
        by_cases hk : dumps d1 = key
        · subst hk
          rw [assocScore_eq_zero_of_not_mem t1 _ hnd.1,
            assocScore_eq_zero_of_not_mem t2 _ hnd2]
        · have h2 := hsc key
          simp only [assocScore_cons, if_neg hk, zero_add] at h2
          exact h2
      rw [htail]

theorem assocScore_map_scale (c : ℚ) (key : String) :
    ∀ (l : List (RetrievedItem × ℚ)),
      assocScore (l.map fun p => (p.1, c * p.2)) key = c * assocScore l key := by
  intro l
  induction l with
  | nil => simp [assocScore_nil]
  | cons p t ihl =>
    obtain ⟨d, s⟩ := p
    rw [List.map_cons]
    rw [assocScore_cons, assocScore_cons, ihl, mul_add]
    by_cases hk : dumps d = key
    · rw [if_pos hk, if_pos hk]
    · rw [if_neg hk, if_neg hk, mul_zero]

theorem itemsOf_map_scale (c : ℚ) (l : List (RetrievedItem × ℚ)) :
    itemsOf (l.map fun p => (p.1, c * p.2)) = itemsOf l := by
  simp [itemsOf, List.map_map, Function.comp]

theorem feFold_absorb :
    ∀ (l acc : List RetrievedItem), (∀ d ∈ l, dumps d ∈ acc.map dumps) →
      l.foldl feStep acc = acc := by
  intro l
  induction l with
  | nil => intro acc _; rfl
  | cons d t ih =>
    intro acc h
    rw [List.foldl_cons]
    have hstep : feStep acc d = acc := by
      rw [feStep, if_pos (h d (List.mem_cons_self _ _))]
    rw [hstep]
    exact ih acc fun e he => h e (List.mem_cons_of_mem _ he)

theorem mem_firstEncounter_of_mem (L : List RetrievedItem) (acc : List RetrievedItem)
    (d : RetrievedItem) (hd : d ∈ L) : dumps d ∈ (L.foldl feStep acc).map dumps := by
  rw [mem_map_dumps_feFold]
  exact Or.inr (List.mem_map.mpr ⟨d, hd, rfl⟩)

theorem firstEncounterItems_replicate (L : List RetrievedItem) :
    ∀ (n : ℕ), firstEncounterItems (List.replicate (n + 1) L).flatten
      = firstEncounterItems L := by
  have habs : ∀ (m : ℕ),
      (List.replicate m L).flatten.foldl feStep (L.foldl feStep []) =
        L.foldl feStep [] := by
    intro m
    induction m with
    | zero => rfl
    | succ m ihm =>
      rw [List.replicate_succ, List.flatten_cons, List.foldl_append]
      have : L.foldl feStep (L.foldl feStep []) = L.foldl feStep [] :=
        feFold_absorb L _ fun d hd => mem_firstEncounter_of_mem L [] d hd
      rw [this]
      exact ihm
  intro n
  rw [firstEncounterItems, firstEncounterItems, List.replicate_succ,
    List.flatten_cons, List.foldl_append]
  exact habs n

theorem totalScore_replicate (key : String) (k : ℚ) (L : List RetrievedItem) (n : ℕ) :
    totalScore key k (List.replicate n L) = (n : ℚ) * listScore key k L := by
  rw [totalScore, List.map_replicate, List.sum_replicate, nsmul_eq_mul]

theorem fusedScores_replicate (L : List RetrievedItem) (k : ℚ) (N : ℕ) (hN : 1 ≤ N) :
    fusedScores (List.replicate N L) k =
      (fusedScores [L] k).map fun p => (p.1, (N : ℚ) * p.2) := by
  obtain ⟨n, rfl⟩ := Nat.exists_eq_add_of_le hN
  refine assoc_ext _ _ ?_ (nodup_keysOf_fusedScores _ _) ?_
  · rw [itemsOf_map_scale, itemsOf_fusedScores, itemsOf_fusedScores]
    rw [Nat.add_comm 1 n, firstEncounterItems_replicate]
    simp [firstEncounterItems]
  · intro key
    rw [assocScore_fusedScores, assocScore_map_scale, assocScore_fusedScores,
      totalScore_replicate]
    have : totalScore key k [L] = listScore key k L := by
      simp [totalScore]
    rw [this]

theorem insertByScore_map_scale (c : ℚ) (hc : 0 < c) (x : RetrievedItem × ℚ) :
    ∀ (l : List (RetrievedItem × ℚ)),
      insertByScore (x.1, c * x.2) (l.map fun p => (p.1, c * p.2)) =
        (insertByScore x l).map fun p => (p.1, c * p.2) := by
  intro l
  induction l with
  | nil => rfl
  | cons y ys ih =>
    rw [List.map_cons, insertByScore, insertByScore]
    by_cases h : y.2 ≤ x.2
    · rw [if_pos ((mul_le_mul_left hc).mpr h), if_pos h, List.map_cons, List.map_cons]
    · rw [if_neg (fun hc2 => h ((mul_le_mul_left hc).mp hc2)), if_neg h,
        List.map_cons, ih]

theorem sortByScoreDesc_map_scale (c : ℚ) (hc : 0 < c) :
    ∀ (l : List (RetrievedItem × ℚ)),
      sortByScoreDesc (l.map fun p => (p.1, c * p.2)) =
        (sortByScoreDesc l).map fun p => (p.1, c * p.2) := by
  intro l
  induction l with
  | nil => rfl
  | cons x t ih =>
    rw [List.map_cons, sortByScoreDesc_cons, sortByScoreDesc_cons, ih,
      ← insertByScore_map_scale c hc x]

theorem hasZeroDenominator_replicate (L : List RetrievedItem) (k : ℚ) :
    ∀ (n : ℕ), hasZeroDenominator (List.replicate (n + 1) L) k
      = hasZeroDenominator [L] k := by
  intro n
  induction n with
  | zero => rfl
  | succ m ihm =>
    have hstep : hasZeroDenominator (List.replicate (m + 1 + 1) L) k
        = (((List.range L.length).any fun r => decide ((r : ℚ) + k = 0)) ||
          hasZeroDenominator (List.replicate (m + 1) L) k) := by
      rw [hasZeroDenominator, List.replicate_succ, List.any_cons, hasZeroDenominator]
    rw [hstep, ihm]
    have hone : hasZeroDenominator [L] k
        = ((List.range L.length).any fun r => decide ((r : ℚ) + k = 0)) := by
      rw [hasZeroDenominator]
      simp
    rw [hone]
    cases h : (List.range L.length).any fun r => decide ((r : ℚ) + k = 0) <;> simp

/-- C7: fusing one list repeated N ≥ 1 times equals fusing it once with
every fused score multiplied by N — the same documents in the same relative
order.  This holds for every k: error runs map to error runs, and normal
runs scale entrywise. -/

theorem rrf_replicate_scales (L : List RetrievedItem) (k : ℚ) (N : ℕ) (hN : 1 ≤ N) :
    reciprocal_rank_fusion (List.replicate N L) k =
      Except.map (List.map fun p => (p.1, (N : ℚ) * p.2))
        (reciprocal_rank_fusion [L] k) := by
  obtain ⟨n, rfl⟩ := Nat.exists_eq_add_of_le hN
  rw [Nat.add_comm 1 n]
  have hz := hasZeroDenominator_replicate L k n
  rw [reciprocal_rank_fusion, reciprocal_rank_fusion, hz]
  by_cases h : hasZeroDenominator [L] k = true
  · rw [if_pos h, if_pos h]
    rfl
  · rw [if_neg h, if_neg h]
    have hpos : (0 : ℚ) < ((n + 1 : ℕ) : ℚ) := by positivity
    rw [fusedScores_replicate L k (n + 1) (Nat.le_add_left 1 n),
      sortByScoreDesc_map_scale _ hpos]
    rfl

/-- C7 witness: one two-document list repeated twice with k = 60. -/

theorem rrf_replicate_scales_witness :
    reciprocal_rank_fusion (List.replicate 2 [sampleA, sampleB]) 60 =
      Except.map (List.map fun p => (p.1, (2 : ℚ) * p.2))
        (reciprocal_rank_fusion [[sampleA, sampleB]] 60) :=
  rrf_replicate_scales [sampleA, sampleB] 60 2 (by norm_num)

end RagTechniques

